import Mathlib

/-!
Shallow embedding of the diceware passphrase generator (`src/lib.rs`).

Rust `usize` values are modelled as `Nat`; every value manipulated by the
program (dice in `1..=5`, wordlist indices `≤ 66666`, line counts) is far below
`2^64`, and `str::parse::<usize>` checks its bound explicitly, so machine
overflow is modelled only where the source checks it (in `parseUsize`).
Fallible operations (a Rust panic) are modelled with `Option`: `none` is a
panic.  The random number generator `rand::thread_rng` is modelled as an
arbitrary stream `Nat → Nat` of raw draws; `gen_range(start..end)` maps a raw
draw `v` to `start + v % (end - start)`, which ranges over exactly
`[start, end)`, and panics (`none`) exactly when the range is empty, matching
the `rand` contract.
-/

namespace Diceware

/-- `char::is_ascii_whitespace`: space, tab, line feed, form feed, carriage return. -/
def isAsciiWhitespace (c : Char) : Bool :=
  c = ' ' || c = '\t' || c = '\n' || c = '\x0c' || c = '\r'

/-- `to_components` (lib.rs:246): `line.split_ascii_whitespace().collect()`.
Runs of ASCII whitespace separate tokens; no empty tokens are produced. -/
def to_components (line : String) : List String :=
  ((line.data.splitOnP isAsciiWhitespace).filter (fun t => t ≠ [])).map
    (fun cs => String.mk cs)

/-- `str::parse::<usize>`: an optional leading `+`, then one or more ASCII
digits, and the value must fit in 64 bits (checked multiply/add overflow in
`from_str_radix`; since accumulation is monotone, the final-value check is
equivalent). -/
def parseUsize (s : String) : Option Nat :=
  let ds := match s.data with
    | '+' :: rest => rest
    | cs => cs
  if ds ≠ [] ∧ ds.all (fun c => c.isDigit) then
    let v := ds.foldl (fun a c => a * 10 + (c.toNat - 48)) 0
    if v < 2 ^ 64 then some v else none
  else
    none

/-- `to_pair` (lib.rs:251): takes the first two components (further components
are ignored by the two `components.next()` calls), parses the first as `usize`,
and yields the pair, or `none` on fewer than two components or a parse error. -/
def to_pair (components : List String) : Option (Nat × String) :=
  match components with
  | index :: word :: _ =>
    match parseUsize index with
    | some i => some (i, word)
    | none => none
  | _ => none

/-- `to_index` (lib.rs:266): `ns.iter().fold(0, |acc, n| acc * 10 + n)` as the
unbounded fold.  It agrees with the `usize` source exactly while the
accumulator stays below `2^64`, which holds everywhere it is consumed
(the dice digits are at most 5 and the indices at most 55555); past that
bound the source wraps or panics, which `to_index_u64` below models. -/
def to_index (ns : List Nat) : Nat :=
  ns.foldl (fun acc n => acc * 10 + n) 0

/-- `to_index` (lib.rs:266) on 64-bit `usize` in release mode: every fold step
wraps modulo `2^64` (with overflow checks on, the first wrapping step would
panic instead). -/
def to_index_u64 (ns : List Nat) : Nat :=
  ns.foldl (fun acc n => (acc * 10 + n) % 2 ^ 64) 0

/-- `rand::Rng::gen_range(start..end)` on one raw draw `v` of the stream:
panics when the range `start..end` is empty, otherwise yields a value in
`[start, end)` (every such value is realized by some draw). -/
def genRange (start «end» v : Nat) : Option Nat :=
  if start < «end» then some (start + v % («end» - start)) else none

/-- Collects a list of `Option` results, failing if any element fails
(a panic inside an iterator chain aborts the whole computation). -/
def collectOpt (f : α → Option β) : List α → Option (List β)
  | [] => some []
  | a :: l =>
    match f a, collectOpt f l with
    | some b, some bs => some (b :: bs)
    | _, _ => none

/-- One run of the inner iterator of `roll_dice`: `rolls` draws from the
stream, starting at stream position `base`. -/
def rollRun (rolls start «end» : Nat) (stream : Nat → Nat) (base : Nat) :
    Option (List Nat) :=
  collectOpt (fun i => genRange start «end» (stream (base + i))) (List.range rolls)

/-- `roll_dice` (lib.rs:201): `runs` runs of `rolls` draws each from
`gen_range(start..end)`; the stream is consumed left to right, so run `r`
uses stream positions `r * rolls + i`.  A panic in `gen_range` (empty range,
first actual draw) aborts the call (`none`). -/
def roll_dice (runs rolls start «end» : Nat) (stream : Nat → Nat) :
    Option (List (List Nat)) :=
  collectOpt (fun r => rollRun rolls start «end» stream (r * rolls)) (List.range runs)

/-- `passphrase` (lib.rs:210): fold over the rolls; for each roll, resolve its
index and scan `lines` front to back (`find_map`) for the first line that
parses to a pair with that index; append the word when found, skip otherwise. -/
def passphrase (lines : List String) (dice_rolls : List (List Nat)) : List String :=
  dice_rolls.foldl
    (fun acc roll =>
      let rolled_index := to_index roll
      let rolled_word := lines.findSome? (fun line =>
        match to_pair (to_components line) with
        | some (index, word) => if rolled_index = index then some word else none
        | none => none)
      match rolled_word with
      | some word => acc ++ [word]
      | none => acc)
    []

/-- `Preset` (lib.rs:10): formatting presets. -/
inductive Preset where
  | PascalCase : Preset
  | KebabCase : Preset
  | SnakeCase : Preset
  | Arbitrary (capitalize : Bool) (delimiter : Option String) : Preset
  | Default : Preset
deriving Repr, DecidableEq

/-- `char::to_uppercase` of the first character.  Rust uses the full Unicode
uppercase mapping (possibly several characters); the wordlists and all inputs
exercised here are ASCII, where that mapping coincides with the single-character
ASCII mapping `Char.toUpper`, which is how it is modelled. -/
def charToUppercase (c : Char) : String :=
  String.singleton c.toUpper

/-- `to_capitalized` (lib.rs:271): uppercase the first character, keep the
rest; the empty string maps to the empty string. -/
def to_capitalized (s : String) : String :=
  match s.data with
  | [] => ""
  | first :: rest => charToUppercase first ++ String.mk rest

/-- `Entropy` (lib.rs:120).  The `entropy: f32` field (an IEEE single-precision
value computed by `calc_entropy`) is floating point and is not modelled; only
the `possibilities` field is. -/
structure Entropy where
  possibilities : Nat
deriving Repr, DecidableEq

/-- `Entropy::new` (lib.rs:128), restricted to the modelled field. -/
def Entropy.new (possibilities _phrase_length : Nat) : Entropy :=
  { possibilities }

/-- `Passphrase` (lib.rs:138). -/
structure Passphrase where
  preset : Preset
  entropy : Entropy
  words : List String
deriving Repr

namespace Passphrase

def DELIM_DEFAULT : String := " "
def DELIM_KEBABCASE : String := "-"
def DELIM_PASCALCASE : String := ""
def DELIM_SNAKECASE : String := "_"

/-- `Passphrase::format_using` (lib.rs:185): optionally capitalize each word,
then `join` with the delimiter. -/
def format_using (self : Passphrase) (delimiter : String) (capitalize : Bool) :
    String :=
  let words := if capitalize then self.words.map to_capitalized else self.words
  String.intercalate delimiter words

/-- `Passphrase::format_with` (lib.rs:166). -/
def format_with (self : Passphrase) (preset : Preset) : String :=
  match preset with
  | .PascalCase => self.format_using DELIM_PASCALCASE true
  | .KebabCase => self.format_using DELIM_KEBABCASE false
  | .SnakeCase => self.format_using DELIM_SNAKECASE false
  | .Arbitrary capitalize delimiter =>
    self.format_using (delimiter.getD DELIM_DEFAULT) capitalize
  | .Default => self.format_using DELIM_DEFAULT false

/-- `Passphrase::format` (lib.rs:161). -/
def format (self : Passphrase) : String :=
  self.format_with self.preset

end Passphrase

/-- `Passphraser` (lib.rs:66): the builder. -/
structure Passphraser where
  length : Nat
  wordlist : List String
  preset : Preset

/-- `Passphraser::generate` (lib.rs:104): rolls `length` runs of 5 dice with
`gen_range(1..6)`, resolves them to words, and records entropy computed from
the raw wordlist line count (`self.wordlist.len()`). -/
def Passphraser.generate (self : Passphraser) (stream : Nat → Nat) :
    Option Passphrase :=
  match roll_dice self.length 5 1 6 stream with
  | none => none
  | some rolls =>
    some { words := passphrase self.wordlist rolls
           preset := self.preset
           entropy := Entropy.new self.wordlist.length self.length }

end Diceware

namespace DicewareSpec

open Diceware

/-- Spec side (§4.6 table): the delimiter each preset joins with. -/
def presetDelimiter : Preset → String
  | .PascalCase => ""
  | .KebabCase => "-"
  | .SnakeCase => "_"
  | .Arbitrary _ delimiter => delimiter.getD " "
  | .Default => " "

/-- Spec side (§4.6 table): whether the preset capitalizes each word. -/
def presetCapitalizes : Preset → Bool
  | .PascalCase => true
  | .Arbitrary capitalize _ => capitalize
  | _ => false

/-- Spec side (§4.4): the word a roll resolves to — parse every line to an
entry, take the first entry whose index equals the resolved index, first-listed
entry winning on duplicates. -/
def lookupWord (lines : List String) (idx : Nat) : Option String :=
  ((lines.filterMap (fun line => to_pair (to_components line))).find?
    (fun e => e.1 = idx)).map (fun e => e.2)

end DicewareSpec

namespace Diceware

/-! ### Helper lemmas -/

theorem collectOpt_eq_some_map (f : α → Option β) (g : α → β) :
    ∀ (l : List α), (∀ a ∈ l, f a = some (g a)) → collectOpt f l = some (l.map g)
  | [], _ => rfl
  | a :: l, h => by
    have ha : f a = some (g a) := h a (List.mem_cons_self a l)
    have hl : collectOpt f l = some (l.map g) :=
      collectOpt_eq_some_map f g l (fun b hb => h b (List.mem_cons_of_mem a hb))
    simp [collectOpt, ha, hl]

theorem collectOpt_eq_none (f : α → Option β) :
    ∀ (l : List α) (a : α), a ∈ l → f a = none → collectOpt f l = none := by
  intro l
  induction l with
  | nil => intro a ha; cases ha
  | cons b t ih =>
    intro a ha hfa
    rcases List.mem_cons.mp ha with rfl | hat
    · simp [collectOpt, hfa]
    · cases hfb : f b <;> simp [collectOpt, hfb, ih a hat hfa]

/-- With a non-empty range, `roll_dice` never panics and is the double map of
`start + draw % (end - start)` over stream positions. -/
theorem roll_dice_eq_of_lt (runs rolls start «end» : Nat) (stream : Nat → Nat)
    (h : start < «end») :
    roll_dice runs rolls start «end» stream =
      some ((List.range runs).map (fun r => (List.range rolls).map
        (fun i => start + stream (r * rolls + i) % («end» - start)))) := by
  unfold roll_dice
  apply collectOpt_eq_some_map
  intro r _
  unfold rollRun
  apply collectOpt_eq_some_map
  intro i _
  simp [genRange, h]

theorem foldl_digits_le (bound : Nat) :
    ∀ (ns : List Nat) (acc acc' : Nat), acc ≤ acc' → (∀ d ∈ ns, d ≤ bound) →
      ns.foldl (fun a n => a * 10 + n) acc ≤
        (List.replicate ns.length bound).foldl (fun a n => a * 10 + n) acc' := by
  intro ns
  induction ns with
  | nil => intro acc acc' hle _; simpa using hle
  | cons d t ih =>
    intro acc acc' hle hd
    rw [List.length_cons, List.replicate_succ, List.foldl_cons, List.foldl_cons]
    apply ih
    · have : d ≤ bound := hd d (List.mem_cons_self d t)
      omega
    · intro x hx; exact hd x (List.mem_cons_of_mem d hx)

/-- The accumulating fold of `passphrase` appends exactly the words recovered
by `filterMap` over the rolls, in roll order. -/
theorem foldl_append_eq_filterMap (f : List Nat → Option String) :
    ∀ (rolls : List (List Nat)) (acc : List String),
      rolls.foldl (fun acc roll =>
        match f roll with
        | some word => acc ++ [word]
        | none => acc) acc = acc ++ rolls.filterMap f := by
  intro rolls
  induction rolls with
  | nil => intro acc; simp
  | cons r t ih =>
    intro acc
    rw [List.foldl_cons, List.filterMap_cons]
    cases hf : f r with
    | none => simp [hf, ih]
    | some w => simp [hf, ih (acc ++ [w])]

/-- The per-roll `find_map` scan of raw lines agrees with: parse all lines to
entries, then take the first entry carrying the resolved index. -/
theorem findSome?_eq_lookupWord (idx : Nat) :
    ∀ (lines : List String),
      lines.findSome? (fun line =>
        match to_pair (to_components line) with
        | some (index, word) => if idx = index then some word else none
        | none => none) = DicewareSpec.lookupWord lines idx := by
  intro lines
  induction lines with
  | nil => simp [DicewareSpec.lookupWord]
  | cons l t ih =>
    rw [List.findSome?_cons]
    unfold DicewareSpec.lookupWord
    cases hp : to_pair (to_components l) with
    | none =>
      simp only [hp, List.filterMap_cons]
      exact ih
    | some e =>
      obtain ⟨i, w⟩ := e
      by_cases hi : idx = i
      · subst hi
        simp [hp, List.filterMap_cons, List.find?_cons]
      · have hi' : ¬ (i = idx) := fun h => hi h.symm
        simp only [hp, hi, if_false, List.filterMap_cons, List.find?_cons]
        simp only [hi', decide_eq_true_eq, decide_False]
        exact ih

/-- `passphrase` as a `filterMap` over the rolls. -/
theorem passphrase_eq_filterMap (lines : List String) (rolls : List (List Nat)) :
    passphrase lines rolls =
      rolls.filterMap (fun roll => DicewareSpec.lookupWord lines (to_index roll)) := by
  unfold passphrase
  have h := foldl_append_eq_filterMap
    (fun roll => lines.findSome? (fun line =>
      match to_pair (to_components line) with
      | some (index, word) => if to_index roll = index then some word else none
      | none => none)) rolls []
  rw [h]
  simp only [List.nil_append]
  apply List.filterMap_congr
  intro roll _
  exact findSome?_eq_lookupWord (to_index roll) lines

/-- The pure fold never drops below its accumulator, so intermediate values
are bounded by the final one. -/
theorem foldl_le_self :
    ∀ (ns : List Nat) (acc : Nat), acc ≤ ns.foldl (fun a n => a * 10 + n) acc := by
  intro ns
  induction ns with
  | nil => intro acc; simp
  | cons n t ih =>
    intro acc
    rw [List.foldl_cons]
    calc acc ≤ acc * 10 + n := by omega
      _ ≤ t.foldl (fun a n => a * 10 + n) (acc * 10 + n) := ih (acc * 10 + n)

/-- While the final pure value stays below `2^64`, no fold step ever reaches
the modulus, so the wrapping and the pure fold coincide. -/
theorem foldl_wrap_eq :
    ∀ (ns : List Nat) (acc : Nat),
      ns.foldl (fun a n => a * 10 + n) acc < 2 ^ 64 →
        ns.foldl (fun a n => (a * 10 + n) % 2 ^ 64) acc =
          ns.foldl (fun a n => a * 10 + n) acc := by
  intro ns
  induction ns with
  | nil => intro acc _; rfl
  | cons n t ih =>
    intro acc h
    rw [List.foldl_cons] at h ⊢
    rw [List.foldl_cons]
    have hstep : acc * 10 + n < 2 ^ 64 :=
      lt_of_le_of_lt (foldl_le_self t (acc * 10 + n)) h
    rw [Nat.mod_eq_of_lt hstep]
    exact ih (acc * 10 + n) h

theorem foldl_eq_ofDigits :
    ∀ (ns : List Nat) (acc : Nat),
      ns.foldl (fun a n => a * 10 + n) acc =
        acc * 10 ^ ns.length + Nat.ofDigits 10 ns.reverse := by
  intro ns
  induction ns with
  | nil => intro acc; simp [Nat.ofDigits]
  | cons n t ih =>
    intro acc
    rw [List.foldl_cons, ih, List.reverse_cons, Nat.ofDigits_append,
      List.length_reverse, List.length_cons]
    simp only [Nat.ofDigits_cons, Nat.ofDigits_nil]
    ring

end Diceware

/-! ### Claims -/

open Diceware in
/-- Counterexample for C6: on twenty digits 9 the `usize` fold overflows —
in release mode it wraps to 7766279631452241919, while the base-10 numeral is
99999999999999999999 (with overflow checks on it would panic instead of being
total), so the unrestricted equality and totality fail on the program. -/
theorem claim_C6_counterexample :
    to_index_u64 (List.replicate 20 9) = 7766279631452241919 ∧
    Nat.ofDigits 10 (List.replicate 20 9).reverse = 99999999999999999999 ∧
    (7766279631452241919 : Nat) ≠ 99999999999999999999 :=
  ⟨by decide, by decide, by decide⟩

open Diceware in
/-- Claim C6 (amended): for every digit sequence whose left-to-right base-10
numeral is below `2^64`, `to_index` incurs no overflow and equals that numeral
(`Nat.ofDigits 10` of the reversed sequence) — the wrapping `usize` fold and
the unbounded fold agree there — with `to_index([1,1,1]) = 111` and
`to_index([5,2,3,1,6]) = 52316`; beyond that bound the `usize` fold wraps
(release) or panics (debug). -/
theorem claim_C6_amended :
    (∀ ns : List Nat, Nat.ofDigits 10 ns.reverse < 2 ^ 64 →
      to_index_u64 ns = Nat.ofDigits 10 ns.reverse ∧
      to_index_u64 ns = to_index ns)
    ∧ to_index_u64 [1, 1, 1] = 111
    ∧ to_index_u64 [5, 2, 3, 1, 6] = 52316 := by
  refine ⟨fun ns h => ?_, by decide, by decide⟩
  have hpure : ns.foldl (fun a n => a * 10 + n) 0 = Nat.ofDigits 10 ns.reverse := by
    simpa [to_index] using foldl_eq_ofDigits ns 0
  have hwrap : to_index_u64 ns = ns.foldl (fun a n => a * 10 + n) 0 :=
    foldl_wrap_eq ns 0 (hpure ▸ h)
  exact ⟨hwrap.trans hpure, hwrap⟩

/-- Witness for the amended C6 at the digit sequence `[5,2,3,1,6]`. -/
theorem claim_C6_witness :
    Diceware.to_index_u64 [5, 2, 3, 1, 6] =
      Nat.ofDigits 10 ([5, 2, 3, 1, 6] : List Nat).reverse ∧
    Diceware.to_index_u64 [5, 2, 3, 1, 6] = Diceware.to_index [5, 2, 3, 1, 6] :=
  claim_C6_amended.1 [5, 2, 3, 1, 6] (by decide)

open Diceware in
/-- Claim C5: with a non-empty range `start < end`, `roll_dice` returns exactly
`runs` sequences of `rolls` elements each, every element in `[start, end)`. -/
theorem claim_C5_roll_dice_shape (runs rolls start «end» : Nat)
    (stream : Nat → Nat) (h : start < «end») :
    ∃ rss, roll_dice runs rolls start «end» stream = some rss ∧
      rss.length = runs ∧
      ∀ rs ∈ rss, rs.length = rolls ∧ ∀ d ∈ rs, start ≤ d ∧ d < «end» := by
  refine ⟨_, roll_dice_eq_of_lt runs rolls start «end» stream h, by simp, ?_⟩
  intro rs hrs
  simp only [List.mem_map, List.mem_range] at hrs
  obtain ⟨r, _, rfl⟩ := hrs
  refine ⟨by simp, ?_⟩
  intro d hd
  simp only [List.mem_map, List.mem_range] at hd
  obtain ⟨i, _, rfl⟩ := hd
  have hmod : stream (r * rolls + i) % («end» - start) < «end» - start :=
    Nat.mod_lt _ (by omega)
  omega

/-- Witness for C5 at `runs = 2`, `rolls = 5`, range `[1, 6)`, stream `id`. -/
theorem claim_C5_witness :
    ∃ rss, Diceware.roll_dice 2 5 1 6 id = some rss ∧
      rss.length = 2 ∧
      ∀ rs ∈ rss, rs.length = 5 ∧ ∀ d ∈ rs, 1 ≤ d ∧ d < 6 :=
  claim_C5_roll_dice_shape 2 5 1 6 id (by decide)

/-- Counterexample for C4: with the empty range `low = high = 0`, `roll_dice`
returns normally (no panic) when `runs = 0`, and also when `rolls = 0`,
because `gen_range` is then never invoked. -/
theorem claim_C4_counterexample :
    Diceware.roll_dice 0 5 0 0 id = some [] ∧
    Diceware.roll_dice 6 0 0 0 id = some [[], [], [], [], [], []] :=
  ⟨rfl, rfl⟩

open Diceware in
/-- Claim C4 (amended): `roll_dice` with an empty range `low = high` panics
exactly when it draws at least once, i.e. whenever `runs ≥ 1` and `rolls ≥ 1`;
with `runs = 0` or `rolls = 0` it returns normally. -/
theorem claim_C4_amended (runs rolls low : Nat) (stream : Nat → Nat)
    (h1 : 1 ≤ runs) (h2 : 1 ≤ rolls) :
    roll_dice runs rolls low low stream = none := by
  unfold roll_dice
  apply collectOpt_eq_none _ _ 0 (List.mem_range.mpr (by omega))
  unfold rollRun
  apply collectOpt_eq_none _ _ 0 (List.mem_range.mpr (by omega))
  simp [genRange]

/-- Witness for the amended C4 at `runs = rolls = 1`, `low = high = 0`. -/
theorem claim_C4_witness : Diceware.roll_dice 1 1 0 0 id = none :=
  claim_C4_amended 1 1 0 id (by decide) (by decide)

open Diceware in
/-- Claim C1 (code bug): `generate` rolls with `roll_dice(length, 5, 1, 6)`,
whose upper bound is exclusive, so every die outcome lies in `1..=5` — the
outcome 6 can never occur and every resolved index is at most 55555, although
the built-in wordlist scheme needs indices up to 66666. -/
theorem claim_C1_dice_never_six (runs : Nat) (stream : Nat → Nat)
    (rss : List (List Nat)) (h : roll_dice runs 5 1 6 stream = some rss) :
    rss.length = runs ∧
    ∀ rs ∈ rss, rs.length = 5 ∧ to_index rs ≤ 55555 ∧ ∀ d ∈ rs, 1 ≤ d ∧ d ≤ 5 := by
  rw [roll_dice_eq_of_lt runs 5 1 6 stream (by decide)] at h
  obtain rfl := Option.some_inj.mp h
  refine ⟨by simp, ?_⟩
  intro rs hrs
  simp only [List.mem_map, List.mem_range] at hrs
  obtain ⟨r, _, rfl⟩ := hrs
  have hlen : ((List.range 5).map fun i => 1 + stream (r * 5 + i) % (6 - 1)).length = 5 := by
    simp
  have hdig : ∀ d ∈ (List.range 5).map (fun i => 1 + stream (r * 5 + i) % (6 - 1)),
      1 ≤ d ∧ d ≤ 5 := by
    intro d hd
    simp only [List.mem_map, List.mem_range] at hd
    obtain ⟨i, _, rfl⟩ := hd
    have := Nat.mod_lt (stream (r * 5 + i)) (show 0 < 6 - 1 by decide)
    omega
  refine ⟨hlen, ?_, hdig⟩
  have hb := foldl_digits_le 5 ((List.range 5).map fun i => 1 + stream (r * 5 + i) % (6 - 1))
    0 0 (le_refl 0) (fun d hd => (hdig d hd).2)
  rw [hlen] at hb
  have h55 : (List.replicate 5 5).foldl (fun a n => a * 10 + n) 0 = 55555 := by decide
  unfold to_index
  omega

/-- Witness for C1 at `runs = 1`, stream `id`, which rolls `[[1,2,3,4,5]]`. -/
theorem claim_C1_witness :
    ([[1, 2, 3, 4, 5]] : List (List Nat)).length = 1 ∧
    ∀ rs ∈ ([[1, 2, 3, 4, 5]] : List (List Nat)),
      rs.length = 5 ∧ Diceware.to_index rs ≤ 55555 ∧ ∀ d ∈ rs, 1 ≤ d ∧ d ≤ 5 :=
  claim_C1_dice_never_six 1 id [[1, 2, 3, 4, 5]] rfl

open Diceware in
/-- Claim C2: `passphrase` equals the `filterMap` over the rolls of the
first-match lookup (parse every line, take the first entry with the resolved
index), so roll order is preserved and the output is never longer than the
roll sequence. -/
theorem claim_C2_passphrase_refines_lookup (lines : List String)
    (rolls : List (List Nat)) :
    passphrase lines rolls =
      rolls.filterMap (fun roll => DicewareSpec.lookupWord lines (to_index roll))
    ∧ (passphrase lines rolls).length ≤ rolls.length := by
  have h := passphrase_eq_filterMap lines rolls
  refine ⟨h, ?_⟩
  rw [h]
  exact List.length_filterMap_le _ _

/-- Counterexample for C3: the line `"12345 apple extra"` splits into three
whitespace-separated tokens, not exactly two, yet parsing yields the entry
`(12345, "apple")` instead of dropping the line. -/
theorem claim_C3_counterexample :
    (Diceware.to_components "12345 apple extra").length = 3 ∧
    Diceware.to_pair (Diceware.to_components "12345 apple extra") =
      some (12345, "apple") := by
  exact ⟨by decide, by decide⟩

open Diceware in
/-- Claim C3 (amended): a raw line yields an entry exactly when it splits on
whitespace into at least two tokens and the first token parses as `usize`;
tokens beyond the second are ignored, and no error is ever raised. -/
theorem claim_C3_amended :
    (∀ line : String,
      (to_pair (to_components line)).isSome ↔
        2 ≤ (to_components line).length ∧
          (parseUsize (to_components line).headI).isSome)
    ∧ to_pair (to_components "12345 apple") = some (12345, "apple")
    ∧ to_pair (to_components "abc apple") = none
    ∧ to_pair (to_components "12345") = none
    ∧ to_pair (to_components "12345 apple extra") = some (12345, "apple") := by
  refine ⟨?_, by decide, by decide, by decide, by decide⟩
  intro line
  cases hc : to_components line with
  | nil => simp [to_pair]
  | cons i tl =>
    cases tl with
    | nil => simp [to_pair]
    | cons w rest =>
      cases hp : parseUsize i with
      | none => simp [to_pair, hp]
      | some v =>
        simp [to_pair, hp]

open Diceware in
/-- Claim C7: `format_with` joins the stored words with the preset's delimiter
(PascalCase "", KebabCase "-", SnakeCase "_", Default " ", Arbitrary its own
delimiter or " "), capitalizing each word exactly for PascalCase and for
Arbitrary with the capitalize flag set; concrete renderings of
["alpha", "beta"] follow. -/
theorem claim_C7_format_with :
    (∀ (p : Passphrase) (preset : Preset),
      p.format_with preset =
        String.intercalate (DicewareSpec.presetDelimiter preset)
          (if DicewareSpec.presetCapitalizes preset
           then p.words.map to_capitalized else p.words))
    ∧ (Passphrase.mk .Default ⟨2⟩ ["alpha", "beta"]).format_with .PascalCase = "AlphaBeta"
    ∧ (Passphrase.mk .Default ⟨2⟩ ["alpha", "beta"]).format_with .KebabCase = "alpha-beta"
    ∧ (Passphrase.mk .Default ⟨2⟩ ["alpha", "beta"]).format_with .SnakeCase = "alpha_beta"
    ∧ (Passphrase.mk .Default ⟨2⟩ ["alpha", "beta"]).format_with .Default = "alpha beta"
    ∧ (Passphrase.mk .Default ⟨2⟩ ["alpha", "beta"]).format_with
        (.Arbitrary true (some ".")) = "Alpha.Beta" := by
  refine ⟨?_, rfl, rfl, rfl, rfl, rfl⟩
  intro p preset
  cases preset <;>
    simp [Passphrase.format_with, Passphrase.format_using,
      DicewareSpec.presetDelimiter, DicewareSpec.presetCapitalizes,
      Passphrase.DELIM_DEFAULT, Passphrase.DELIM_KEBABCASE,
      Passphrase.DELIM_PASCALCASE, Passphrase.DELIM_SNAKECASE]

open Diceware in
/-- Claim C9: `generate` never fails and stores in `entropy.possibilities` the
raw line count of the builder's wordlist; on a wordlist of three raw lines of
which only one parses, possibilities is 3, not 1. -/
theorem claim_C9_possibilities :
    (∀ (b : Passphraser) (stream : Nat → Nat),
      ∃ p, b.generate stream = some p ∧
        p.entropy.possibilities = b.wordlist.length)
    ∧ ((["11111 alpha", "", "junk"] : List String).filterMap
        (fun l => to_pair (to_components l))).length = 1
    ∧ (∃ p, (Passphraser.mk 2 ["11111 alpha", "", "junk"] .Default).generate id
          = some p ∧ p.entropy.possibilities = 3) := by
  refine ⟨?_, by decide, ⟨_, rfl, rfl⟩⟩
  intro b stream
  unfold Passphraser.generate
  rw [roll_dice_eq_of_lt b.length 5 1 6 stream (by decide)]
  exact ⟨_, rfl, rfl⟩

open Diceware in
/-- Claim C10: formatting is total — capitalizing the empty word yields the
empty string, an empty word list formats to the empty string under every
preset, and empty-string words are joined like any other word. -/
theorem claim_C10_format_total :
    to_capitalized "" = ""
    ∧ (∀ (pr : Preset) (e : Entropy) (preset : Preset),
        (Passphrase.mk pr e []).format_with preset = "")
    ∧ (Passphrase.mk .Default ⟨0⟩ ["", "beta"]).format_with .PascalCase = "Beta"
    ∧ (Passphrase.mk .Default ⟨0⟩ ["", ""]).format_with .Default = " " := by
  refine ⟨rfl, ?_, rfl, rfl⟩
  intro pr e preset
  cases preset <;>
    simp [Passphrase.format_with, Passphrase.format_using, String.intercalate]
